import Mathlib

/-!
Shallow embedding of the portfolio reconciliation engine
(`src/ingestion.py`, `src/validators.py`, `src/app.py`) and proofs of the
behavioural claims about it.

Conventions of the embedding:
* calendar dates are day numbers (`ℕ`) ordered as usual;
* `Decimal` values are rationals `ℚ` (exact arithmetic);
* `None` / optional columns are `Option`;
* the SQLAlchemy session is a `Store` value threaded explicitly; a
  `session.query(...)` sees rows added earlier in the same call
  (autoflush semantics), `session.rollback()` restores the store
  passed into the call;
* Python dict insertion-order iteration is modelled by `dictKeys`.
-/

namespace DC

/-- Calendar date, as a day number. -/
abbrev Date := ℕ

/-- A `(account_id, ticker)` key, as used by the dict keys in `app.py`. -/
abbrev Key := String × String

/-- Row of the `accounts` table (`models.Account`). -/
structure Account where
  account_id : String
  custodian_name : Option String
deriving DecidableEq

/-- Row of the `trades` table (`models.Trade`); only the columns the
queries under verification read. -/
structure TradeR where
  trade_date : Date
  account_id : String
  ticker : String
  quantity : Int
  price : Option ℚ
  market_value : Option ℚ
  trade_type : Option String
deriving DecidableEq

/-- Row of the `positions` table (`models.Position`). -/
structure PosR where
  report_date : Date
  account_id : String
  ticker : String
  shares : Int
  market_value : ℚ
  custodian_ref : String
deriving DecidableEq

/-- The record store: contents of the three tables. -/
structure Store where
  accounts : List Account
  trades : List TradeR
  positions : List PosR
deriving DecidableEq

/-- The empty database. -/
def emptyStore : Store := ⟨[], [], []⟩

/-- Python truthiness of an optional string (`if custodian:`):
`None` and `""` are falsy. -/
def strTruthy : Option String → Bool
  | none => false
  | some s => s ≠ ""

/-- Python truthiness of an optional numeric column (`if trade.price:`):
`None` and `0` are falsy. -/
def qTruthy : Option ℚ → Bool
  | none => false
  | some x => x ≠ 0

/-- Append a key to a Python-dict key list if not already present. -/
def insertKey {α : Type} [DecidableEq α] (ks : List α) (k : α) : List α :=
  if k ∈ ks then ks else ks ++ [k]

/-- Key list of a Python dict populated from `l` in order: first
occurrence order, no duplicates. -/
def dictKeys {α : Type} [DecidableEq α] (l : List α) : List α :=
  l.foldl insertKey []

/-- Python's `str.split("_")` over the characters of the string: split at
every underscore, keeping empty segments (`"".split("_") == [""]`,
`"X_".split("_") == ["X", ""]`). -/
def splitUnderscore : List Char → List (List Char)
  | [] => [[]]
  | c :: rest =>
    if c = '_' then [] :: splitUnderscore rest
    else
      match splitUnderscore rest with
      | [] => [[c]]
      | seg :: segs => (c :: seg) :: segs

/-- `custodian_ref.split("_")` as a list of strings. -/
def pySplitUnderscore (s : String) : List String :=
  (splitUnderscore s.data).map (fun cs => String.mk cs)

/-- `extract_custodian_name` (`ingestion.py`): `CUST_A_12345 → CUSTODIAN_A`;
`None`/empty/one-segment references give no name. -/
def extract_custodian_name (custodian_ref : Option String) : Option String :=
  match custodian_ref with
  | none => none
  | some r =>
    if r = "" then none
    else
      match pySplitUnderscore r with
      | _ :: second :: _ => some ("CUSTODIAN_" ++ second)
      | _ => none

/-- `session.query(Account).filter_by(account_id=...).first()`. -/
def lookupAccount (st : Store) (id : String) : Option Account :=
  st.accounts.find? (fun a => a.account_id = id)

/-- Mutation of the first account object with the given id
(the object returned by `.first()`). -/
def setCustodianFirst : List Account → String → Option String → List Account
  | [], _, _ => []
  | a :: rest, id, c =>
    if a.account_id = id then { a with custodian_name := c } :: rest
    else a :: setCustodianFirst rest id c

/-- `ensure_account_exists` (`ingestion.py`): create the account when
missing; otherwise backfill the custodian only when one is given (truthy)
and the account has none (falsy). -/
def ensure_account_exists (st : Store) (id : String) (custodian : Option String) : Store :=
  match lookupAccount st id with
  | none => { st with accounts := st.accounts ++ [⟨id, custodian⟩] }
  | some a =>
    if strTruthy custodian ∧ ¬ strTruthy a.custodian_name then
      { st with accounts := setCustodianFirst st.accounts id custodian }
    else st

/-- `TradeType` enum of `validators.py`. -/
inductive TradeType
  | BUY
  | SELL
deriving DecidableEq

/-- One data row of a Format 1 CSV file, with each cell already carried to
its column type; range and consistency checks are performed by
`validateTradeFormat1`. -/
structure RawTrade1 where
  trade_date : Date
  account_id : String
  ticker : String
  quantity : Int
  price : ℚ
  trade_type : String
  settlement_date : Date
deriving DecidableEq

/-- A row accepted by the `TradeFormat1` pydantic validator. -/
structure TradeFormat1V where
  trade_date : Date
  account_id : String
  ticker : String
  quantity : Int
  price : ℚ
  trade_type : TradeType
  settlement_date : Date
deriving DecidableEq

/-- The `TradeFormat1` validator: field ranges
(`account_id` 1–50 chars, `ticker` 1–20 chars, `quantity > 0`,
`price > 0`, `trade_type ∈ {BUY, SELL}`) plus the
settlement-after-trade check. -/
def validateTradeFormat1 (r : RawTrade1) : Except String TradeFormat1V :=
  if r.account_id.length < 1 ∨ 50 < r.account_id.length then
    .error "invalid account_id" else
  if r.ticker.length < 1 ∨ 20 < r.ticker.length then
    .error "invalid ticker" else
  if r.quantity ≤ 0 then
    .error "quantity must be greater than 0" else
  if r.price ≤ 0 then
    .error "price must be greater than 0" else
  match (if r.trade_type = "BUY" then some TradeType.BUY
         else if r.trade_type = "SELL" then some TradeType.SELL
         else none) with
  | none => .error "invalid trade_type"
  | some tt =>
    if r.settlement_date < r.trade_date then
      .error "Settlement date cannot be before trade date"
    else
      .ok ⟨r.trade_date, r.account_id, r.ticker, r.quantity, r.price, tt,
           r.settlement_date⟩

/-- The canonical `Trade` row built by `ingest_trade_format1` from a
validated record: quantity negated on SELL and
`market_value = price * abs(quantity)`. -/
def mkTrade1 (v : TradeFormat1V) : TradeR :=
  let q : Int := if v.trade_type = TradeType.SELL then -v.quantity else v.quantity
  { trade_date := v.trade_date
    account_id := v.account_id
    ticker := v.ticker
    quantity := q
    price := some v.price
    market_value := some (v.price * |(q : ℚ)|)
    trade_type := some (match v.trade_type with | .BUY => "BUY" | .SELL => "SELL") }

/-- Per-ingestion-call result (`validators.DataQualityReport`), restricted
to the fields the claims are about. -/
structure Report where
  records_processed : ℕ := 0
  records_valid : ℕ := 0
  records_failed : ℕ := 0
  errors : List String := []
  new_accounts_created : ℕ := 0
deriving DecidableEq

/-- A fresh report, all counters zero. -/
def emptyReport : Report := {}

/-- The per-row loop of `ingest_trade_format1`; `n` is the file row number
of the next row (`enumerate(reader, start=2)` — the header is row 1).
Note the new-account check queries the store *after*
`ensure_account_exists` has inserted the account, exactly as the Python
does under autoflush. -/
def ingest1loop : Store → Report → ℕ → List RawTrade1 → Report × Store
  | st, rep, _, [] => (rep, st)
  | st, rep, n, row :: rest =>
    let rep := { rep with records_processed := rep.records_processed + 1 }
    match validateTradeFormat1 row with
    | .ok v =>
      let st := ensure_account_exists st v.account_id none
      let rep :=
        if (lookupAccount st v.account_id).isNone then
          { rep with new_accounts_created := rep.new_accounts_created + 1 }
        else rep
      let st := { st with trades := st.trades ++ [mkTrade1 v] }
      let rep := { rep with records_valid := rep.records_valid + 1 }
      ingest1loop st rep (n + 1) rest
    | .error e =>
      let rep := { rep with
        records_failed := rep.records_failed + 1
        errors := rep.errors ++ ["Row " ++ toString n ++ ": " ++ e] }
      ingest1loop st rep (n + 1) rest

/-- `ingest_trade_format1`: process the rows the CSV reader yields; a
file-level failure (modelled by `fileError`, with `rows` the prefix read
before it) appends a single file error and rolls all writes back. -/
def ingest_trade_format1 (st : Store) (rows : List RawTrade1)
    (fileError : Option String) : Report × Store :=
  let out := ingest1loop st emptyReport 2 rows
  match fileError with
  | none => out
  | some e =>
    ({ out.1 with errors := out.1.errors ++ ["File processing error: " ++ e] }, st)

/-- One data row of a Format 2 pipe-delimited file. -/
structure RawTrade2 where
  report_date : Date
  account_id : String
  ticker : String
  shares : Int
  market_value : ℚ
  source_system : String
deriving DecidableEq

/-- The `TradeFormat2` validator: `account_id` 1–50 chars, `ticker` 1–20
chars, `source_system` non-empty; shares and market value may have any
sign (the sign validator in the source accepts every combination). -/
def validateTradeFormat2 (r : RawTrade2) : Except String RawTrade2 :=
  if r.account_id.length < 1 ∨ 50 < r.account_id.length then
    .error "invalid account_id" else
  if r.ticker.length < 1 ∨ 20 < r.ticker.length then
    .error "invalid ticker" else
  if r.source_system.length < 1 then
    .error "invalid source_system"
  else .ok r

/-- `TradeFormat2.derived_price`: `abs(market_value / shares)` when
`shares ≠ 0`, else `None`. -/
def derived_price (v : RawTrade2) : Option ℚ :=
  if v.shares ≠ 0 then some |v.market_value / (v.shares : ℚ)| else none

/-- The canonical `Trade` row built by `ingest_trade_format2`. -/
def mkTrade2 (v : RawTrade2) : TradeR :=
  { trade_date := v.report_date
    account_id := v.account_id
    ticker := v.ticker
    quantity := v.shares
    price := derived_price v
    market_value := some v.market_value
    trade_type := none }

/-- The per-row loop of `ingest_trade_format2` (same shape as Format 1,
but the custodian is the row's source system). -/
def ingest2loop : Store → Report → ℕ → List RawTrade2 → Report × Store
  | st, rep, _, [] => (rep, st)
  | st, rep, n, row :: rest =>
    let rep := { rep with records_processed := rep.records_processed + 1 }
    match validateTradeFormat2 row with
    | .ok v =>
      let st := ensure_account_exists st v.account_id (some v.source_system)
      let rep :=
        if (lookupAccount st v.account_id).isNone then
          { rep with new_accounts_created := rep.new_accounts_created + 1 }
        else rep
      let st := { st with trades := st.trades ++ [mkTrade2 v] }
      let rep := { rep with records_valid := rep.records_valid + 1 }
      ingest2loop st rep (n + 1) rest
    | .error e =>
      let rep := { rep with
        records_failed := rep.records_failed + 1
        errors := rep.errors ++ ["Row " ++ toString n ++ ": " ++ e] }
      ingest2loop st rep (n + 1) rest

/-- `ingest_trade_format2`, with the same file-level failure convention as
`ingest_trade_format1`. -/
def ingest_trade_format2 (st : Store) (rows : List RawTrade2)
    (fileError : Option String) : Report × Store :=
  let out := ingest2loop st emptyReport 2 rows
  match fileError with
  | none => out
  | some e =>
    ({ out.1 with errors := out.1.errors ++ ["File processing error: " ++ e] }, st)

/-- One position entry of a YAML bank position file. -/
structure RawBankPosition where
  account_id : String
  ticker : String
  shares : Int
  market_value : ℚ
  custodian_ref : String
deriving DecidableEq

/-- The `BankPosition` pydantic validator (field ranges only). -/
def validBankPosition (p : RawBankPosition) : Bool :=
  (1 ≤ p.account_id.length && p.account_id.length ≤ 50) &&
  (1 ≤ p.ticker.length && p.ticker.length ≤ 20) &&
  1 ≤ p.custodian_ref.length

/-- A parsed YAML position document. -/
structure RawBankFile where
  report_date : Date
  positions : List RawBankPosition
deriving DecidableEq

/-- `BankPositionFile(**data)`: the whole document is validated at once,
so one bad position entry fails the entire document. -/
def validateBankFile (f : RawBankFile) : Except String (List RawBankPosition) :=
  if f.positions.all validBankPosition then .ok f.positions
  else .error "validation error for BankPositionFile"

/-- The `Position` row built for one validated YAML entry. -/
def mkPosition (d : Date) (p : RawBankPosition) : PosR :=
  ⟨d, p.account_id, p.ticker, p.shares, p.market_value, p.custodian_ref⟩

/-- The per-position loop of `ingest_bank_positions`, over the already
validated entries. -/
def bankLoop : Store → Report → Date → List RawBankPosition → Report × Store
  | st, rep, _, [] => (rep, st)
  | st, rep, d, p :: rest =>
    let rep := { rep with records_processed := rep.records_processed + 1 }
    let custodian := extract_custodian_name (some p.custodian_ref)
    let st := ensure_account_exists st p.account_id custodian
    let rep :=
      if (lookupAccount st p.account_id).isNone then
        { rep with new_accounts_created := rep.new_accounts_created + 1 }
      else rep
    let st := { st with positions := st.positions ++ [mkPosition d p] }
    let rep := { rep with records_valid := rep.records_valid + 1 }
    bankLoop st rep d rest

/-- `ingest_bank_positions`: an unparseable document (`none`) or a
document failing `BankPositionFile` validation yields a single file-level
error, zero records processed and no writes. -/
def ingest_bank_positions (st : Store) (doc : Option RawBankFile) : Report × Store :=
  match doc with
  | none => ({ emptyReport with
      errors := ["File processing error: could not parse file"] }, st)
  | some f =>
    match validateBankFile f with
    | .error e => ({ emptyReport with
        errors := ["File processing error: " ++ e] }, st)
    | .ok ps => bankLoop st emptyReport f.report_date ps

/-- Key of a trade row. -/
def tkey (t : TradeR) : Key := (t.account_id, t.ticker)

/-- Key of a position row. -/
def pkey (p : PosR) : Key := (p.account_id, p.ticker)

/-- All trades dated on or before the query date. -/
def tradesUpTo (s : Store) (d : Date) : List TradeR :=
  s.trades.filter (fun t => t.trade_date ≤ d)

/-- All snapshot rows with exactly the query report date. -/
def bankRows (s : Store) (d : Date) : List PosR :=
  s.positions.filter (fun p => p.report_date = d)

/-- Value contribution of one trade to its aggregate
(`price * quantity` when the price column is truthy, else the raw
`market_value` when truthy, else nothing). -/
def tradeValue (t : TradeR) : ℚ :=
  if qTruthy t.price then t.price.getD 0 * (t.quantity : ℚ)
  else if qTruthy t.market_value then t.market_value.getD 0
  else 0

/-- Net signed share count accumulated for a key. -/
def aggShares (ts : List TradeR) (k : Key) : Int :=
  ((ts.filter (fun t => tkey t = k)).map (fun t => t.quantity)).sum

/-- Aggregate market value accumulated for a key. -/
def aggValue (ts : List TradeR) (k : Key) : ℚ :=
  ((ts.filter (fun t => tkey t = k)).map tradeValue).sum

/-- The keys surviving the zero-net-share drop of the trade-derived
concentration computation. -/
def activeKeys (ts : List TradeR) : List Key :=
  (dictKeys (ts.map tkey)).filter (fun k => aggShares ts k ≠ 0)

/-- A computed concentration violation (shared row shape of the
`from_trades` and `from_bank` entries; the bank-only `custodian_ref`
field is not claim-relevant). -/
structure Violation where
  account_id : String
  ticker : String
  shares : Int
  market_value : ℚ
  account_total_value : ℚ
  concentration_pct : ℚ
  excess_pct : ℚ
deriving DecidableEq

/-- One per-ticker aggregate fed to the violation check. -/
structure PosAgg where
  ticker : String
  shares : Int
  value : ℚ
deriving DecidableEq

/-- Account total: the sum of the strictly positive aggregate values
only. -/
def posTotal (ps : List PosAgg) : ℚ :=
  ((ps.filter (fun p => 0 < p.value)).map (fun p => p.value)).sum

/-- Order used by `sorted(positions_list, key=lambda x: x.ticker)`. -/
def tickLE (p q : PosAgg) : Prop := p.ticker ≤ q.ticker

instance : DecidableRel tickLE :=
  fun p q => inferInstanceAs (Decidable (p.ticker ≤ q.ticker))

/-- `concentration = pos_value / total_value if total_value > 0 else 0`. -/
def concOf (ps : List PosAgg) (p : PosAgg) : ℚ :=
  if 0 < posTotal ps then p.value / posTotal ps else 0

/-- The shared per-account violation check of
`compliance_concentration`: non-positive aggregates are skipped, the
concentration is `value / total` (0 on a non-positive total), and a
violation is emitted when it exceeds the 20% threshold. -/
def accountViolations (aid : String) (ps : List PosAgg) : List Violation :=
  (List.insertionSort tickLE ps).filterMap (fun p =>
    if p.value ≤ 0 then none
    else if 1 / 5 < concOf ps p then
      some ⟨aid, p.ticker, p.shares, p.value, posTotal ps,
            concOf ps p * 100, (concOf ps p - 1 / 5) * 100⟩
    else none)

/-- Ascending `String` order (for `sorted(...)` over account ids). -/
def strLE (a b : String) : Prop := a ≤ b

instance : DecidableRel strLE :=
  fun a b => inferInstanceAs (Decidable (a ≤ b))

/-- The trade-derived half of `compliance_concentration`: aggregate per
key, drop zero-net-share keys, then check each account. -/
def violationsFromTrades (s : Store) (d : Date) : List Violation :=
  let ts := tradesUpTo s d
  let ks := activeKeys ts
  let accounts := List.insertionSort strLE (dictKeys (ks.map Prod.fst))
  accounts.flatMap (fun aid =>
    accountViolations aid
      ((ks.filter (fun k => k.1 = aid)).map
        (fun k => ⟨k.2, aggShares ts k, aggValue ts k⟩)))

/-- The snapshot-derived half of `compliance_concentration`: every
snapshot row of the date participates as-is — there is no per-ticker
aggregation and no zero-share drop on this side. -/
def violationsFromBank (s : Store) (d : Date) : List Violation :=
  let ps := bankRows s d
  let accounts := List.insertionSort strLE (dictKeys (ps.map (fun p => p.account_id)))
  accounts.flatMap (fun aid =>
    accountViolations aid
      ((ps.filter (fun p => p.account_id = aid)).map
        (fun p => ⟨p.ticker, p.shares, p.market_value⟩)))

/-- `expected_positions.get(key, 0)`: signed sum of the quantities of all
trades for the key dated on or before the query date. -/
def expectedShares (s : Store) (d : Date) (k : Key) : Int :=
  aggShares (tradesUpTo s d) k

/-- `bank_positions_map.get(key, 0)`: the snapshot shares for the key on
exactly the query date (the last row wins when several match, as in the
dict build; 0 when none exists). -/
def actualShares (s : Store) (d : Date) (k : Key) : Int :=
  ((((bankRows s d).filter (fun p => pkey p = k)).map (fun p => p.shares)).getLast?).getD 0

/-- Lexicographic `(account_id, ticker)` order on keys, as `sorted` uses
on the tuples. -/
def keyLE (a b : Key) : Prop := a.1 < b.1 ∨ (a.1 = b.1 ∧ a.2 ≤ b.2)

instance : DecidableRel keyLE := fun a b =>
  inferInstanceAs (Decidable (a.1 < b.1 ∨ (a.1 = b.1 ∧ a.2 ≤ b.2)))

/-- The sorted union of the trade-derived and snapshot key sets. -/
def reconKeys (s : Store) (d : Date) : List Key :=
  List.insertionSort keyLE
    (dictKeys ((tradesUpTo s d).map tkey ++ (bankRows s d).map pkey))

/-- One reconciliation discrepancy row. -/
structure Discrepancy where
  account_id : String
  ticker : String
  expected_shares : Int
  actual_shares : Int
  difference : Int
  status : String
deriving DecidableEq

/-- Key of a discrepancy row. -/
def dkey (dd : Discrepancy) : Key := (dd.account_id, dd.ticker)

/-- The discrepancy emitted for a key, when its expected and actual
shares differ. -/
def mkDiscrepancy (s : Store) (d : Date) (k : Key) : Option Discrepancy :=
  if expectedShares s d k ≠ actualShares s d k then
    some ⟨k.1, k.2, expectedShares s d k, actualShares s d k,
      actualShares s d k - expectedShares s d k,
      if actualShares s d k = 0 then "missing_in_bank"
      else if expectedShares s d k = 0 then "missing_in_trades"
      else "quantity_mismatch"⟩
  else none

/-- The `/reconciliation` computation. -/
def reconcile (s : Store) (d : Date) : List Discrepancy :=
  (reconKeys s d).filterMap (mkDiscrepancy s d)

/-- Cost contribution of one trade
(`price * abs(quantity)` when the price is truthy, else
`abs(market_value)` when truthy, else nothing). -/
def costContrib (t : TradeR) : ℚ :=
  if qTruthy t.price then t.price.getD 0 * |(t.quantity : ℚ)|
  else if qTruthy t.market_value then |t.market_value.getD 0|
  else 0

/-- One entry of the fallback (`calculate_positions_from_trades`)
result. -/
structure FallbackPos where
  ticker : String
  shares : Int
  cost_basis : ℚ
  total_cost : ℚ
  market_value : Option ℚ
deriving DecidableEq

/-- The account's trades dated on or before the query date. -/
def acctTrades (s : Store) (aid : String) (d : Date) : List TradeR :=
  s.trades.filter (fun t => t.account_id = aid ∧ t.trade_date ≤ d)

/-- Net signed shares of one ticker within a trade list. -/
def netSharesFor (ts : List TradeR) (tk : String) : Int :=
  ((ts.filter (fun t => t.ticker = tk)).map (fun t => t.quantity)).sum

/-- Accumulated cost of one ticker within a trade list. -/
def totalCostFor (ts : List TradeR) (tk : String) : ℚ :=
  ((ts.filter (fun t => t.ticker = tk)).map costContrib).sum

/-- `calculate_positions_from_trades`: `none` is the "no trade or
position data found" 404 outcome; otherwise tickers with zero net shares
are omitted and no market value is reported. -/
def calculate_positions_from_trades (s : Store) (aid : String) (d : Date) :
    Option (List FallbackPos) :=
  let ts := acctTrades s aid d
  if ts.isEmpty then none
  else
    some ((dictKeys (ts.map (fun t => t.ticker))).filterMap (fun tk =>
      let sh := netSharesFor ts tk
      if sh ≠ 0 then
        some ⟨tk, sh, totalCostFor ts tk / (sh : ℚ), totalCostFor ts tk, none⟩
      else none))

/-- The canonical trade a Format 1 row contributes when it validates. -/
def okTrade1 (row : RawTrade1) : Option TradeR :=
  (validateTradeFormat1 row).toOption.map mkTrade1

/-- The error entry a Format 1 row at file row `p.1` contributes when it
fails validation. -/
def err1 (p : ℕ × RawTrade1) : Option String :=
  match validateTradeFormat1 p.2 with
  | .error e => some ("Row " ++ toString p.1 ++ ": " ++ e)
  | .ok _ => none

/-- The canonical trade a Format 2 row contributes when it validates. -/
def okTrade2 (row : RawTrade2) : Option TradeR :=
  (validateTradeFormat2 row).toOption.map mkTrade2

/-- The error entry a Format 2 row at file row `p.1` contributes when it
fails validation. -/
def err2 (p : ℕ × RawTrade2) : Option String :=
  match validateTradeFormat2 p.2 with
  | .error e => some ("Row " ++ toString p.1 ++ ": " ++ e)
  | .ok _ => none

/-- One ingestion call, as dispatched by `ingest_file`. -/
inductive IngestCall
  | format1 (rows : List RawTrade1) (fileError : Option String)
  | format2 (rows : List RawTrade2) (fileError : Option String)
  | bank (doc : Option RawBankFile)

/-- The store state after one ingestion call. -/
def runIngest (st : Store) : IngestCall → Store
  | .format1 rows fe => (ingest_trade_format1 st rows fe).2
  | .format2 rows fe => (ingest_trade_format2 st rows fe).2
  | .bank doc => (ingest_bank_positions st doc).2

/-- The store state after a sequence of ingestion calls. -/
def runIngestSeq (st : Store) (calls : List IngestCall) : Store :=
  calls.foldl runIngest st

/-- Store sanity: no account carries the empty string as a custodian
name (ingestion only ever passes `None` or a non-empty name). -/
abbrev StoreOk (st : Store) : Prop :=
  ∀ a ∈ st.accounts, a.custodian_name ≠ some ""

/-- A custodian argument as ingestion passes it: absent or non-empty. -/
abbrev ArgOk (c : Option String) : Prop := c = none ∨ ∃ s, c = some s ∧ s ≠ ""

/-- A fresh, valid Format 1 row for an unseen account (concrete input for
the new-account counter check). -/
def c3row : RawTrade1 := ⟨1, "ACC1", "AAPL", 10, 10, "BUY", 1⟩

/-- A valid Format 1 SELL row of quantity 150 (concrete input for the
sign-convention check). -/
def c4row : RawTrade1 := ⟨1, "ACC1", "TSLA", 150, 185, "SELL", 2⟩

/-- The validated record of `c4row`. -/
def c4v : TradeFormat1V := ⟨1, "ACC1", "TSLA", 150, 185, .SELL, 2⟩

/-- A valid YAML position entry. -/
def c5good : RawBankPosition := ⟨"ACC1", "AAPL", 100, 100, "CUST_A_1"⟩

/-- A YAML position entry failing field validation (empty ticker). -/
def c5bad : RawBankPosition := ⟨"ACC1", "", 50, 50, "CUST_A_2"⟩

/-- A YAML document with one valid and one invalid position entry. -/
def c5doc : RawBankFile := ⟨1, [c5good, c5bad]⟩

/-- Store matching the spec's reconciliation example: two buys summing to
100 expected shares against a snapshot of 75 actual shares. -/
def rstore : Store :=
  ⟨[], [⟨1, "X", "T", 60, none, some 60, none⟩,
        ⟨1, "X", "T", 40, none, some 40, none⟩],
       [⟨1, "X", "T", 75, 75, "CUST_A_9"⟩]⟩

/-- The discrepancy reported on `rstore`. -/
def rdisc : Discrepancy := ⟨"X", "T", 100, 75, -25, "quantity_mismatch"⟩

/-- First concrete ingestion call: Format 2 row setting custodian CUSTA
on account ACC1. -/
def c9call1 : IngestCall := .format2 [⟨1, "ACC1", "T", 5, 100, "CUSTA"⟩] none

/-- Second concrete ingestion call: same account, different custodian. -/
def c9call2 : IngestCall := .format2 [⟨2, "ACC1", "T", 5, 100, "CUSTB"⟩] none

/-- The account as created by `c9call1`. -/
def c9acct : Account := ⟨"ACC1", some "CUSTA"⟩

/-- Store holding one BUY of 10 AAPL at price 10 in account ACC1
(used for concrete checks of the trade-derived computations). -/
def cstoreT : Store :=
  ⟨[], [⟨1, "ACC1", "AAPL", 10, some 10, none, some "BUY"⟩], []⟩

/-- The violation the trade-derived computation reports on `cstoreT`:
the sole position is 100% of the account. -/
def vT : Violation := ⟨"ACC1", "AAPL", 10, 100, 100, 100, 80⟩

/-- Store holding one snapshot row with zero shares but positive market
value (used for concrete checks of the snapshot-derived computation). -/
def c6store : Store :=
  ⟨[], [], [⟨1, "ACC1", "TKR", 0, 100, "CUST_A_1"⟩]⟩

/-- Store with an open position in T and a fully closed one in U for
account A (used for concrete checks of the fallback path). -/
def c7store : Store :=
  ⟨[], [⟨1, "A", "T", 5, some 2, none, some "BUY"⟩,
        ⟨1, "A", "U", 3, some 1, none, some "BUY"⟩,
        ⟨1, "A", "U", -3, some 1, none, some "SELL"⟩], []⟩

/-- The fallback result on `c7store`: U is closed and omitted; no market
value is reported. -/
def psC7 : List FallbackPos := [⟨"T", 5, 2, 10, none⟩]

theorem mem_insertKey {α : Type} [DecidableEq α] {ks : List α} {k a : α} :
    a ∈ insertKey ks k ↔ a ∈ ks ∨ a = k := by
  unfold insertKey
  by_cases h : k ∈ ks
  · rw [if_pos h]
    constructor
    · exact Or.inl
    · rintro (ha | rfl)
      · exact ha
      · exact h
  · rw [if_neg h]
    simp [List.mem_append]

theorem nodup_insertKey {α : Type} [DecidableEq α] {ks : List α} {k : α}
    (h : ks.Nodup) : (insertKey ks k).Nodup := by
  unfold insertKey
  by_cases hk : k ∈ ks
  · rwa [if_pos hk]
  · rw [if_neg hk]
    refine h.append (List.nodup_singleton k) ?_
    intro a ha hak
    rw [List.mem_singleton] at hak
    exact hk (hak ▸ ha)

theorem mem_foldl_insertKey {α : Type} [DecidableEq α] :
    ∀ (l acc : List α) (a : α), a ∈ l.foldl insertKey acc ↔ a ∈ acc ∨ a ∈ l := by
  intro l
  induction l with
  | nil => simp
  | cons x xs ih =>
    intro acc a
    rw [List.foldl_cons, ih, mem_insertKey, List.mem_cons]
    tauto

theorem nodup_foldl_insertKey {α : Type} [DecidableEq α] :
    ∀ (l acc : List α), acc.Nodup → (l.foldl insertKey acc).Nodup := by
  intro l
  induction l with
  | nil => intro acc h; exact h
  | cons x xs ih => intro acc h; exact ih _ (nodup_insertKey h)

theorem mem_dictKeys {α : Type} [DecidableEq α] {l : List α} {a : α} :
    a ∈ dictKeys l ↔ a ∈ l := by
  unfold dictKeys
  rw [mem_foldl_insertKey]
  simp

theorem nodup_dictKeys {α : Type} [DecidableEq α] (l : List α) :
    (dictKeys l).Nodup :=
  nodup_foldl_insertKey l [] List.nodup_nil

instance : IsTotal Key keyLE :=
  ⟨fun a b => by
    unfold keyLE
    rcases lt_trichotomy a.1 b.1 with h | h | h
    · exact Or.inl (Or.inl h)
    · rcases le_total a.2 b.2 with h2 | h2
      · exact Or.inl (Or.inr ⟨h, h2⟩)
      · exact Or.inr (Or.inr ⟨h.symm, h2⟩)
    · exact Or.inr (Or.inl h)⟩

instance : IsTrans Key keyLE :=
  ⟨fun a b c hab hbc => by
    unfold keyLE at hab hbc ⊢
    rcases hab with h1 | ⟨e1, le1⟩ <;> rcases hbc with h2 | ⟨e2, le2⟩
    · exact Or.inl (h1.trans h2)
    · exact Or.inl (e2 ▸ h1)
    · exact Or.inl (e1 ▸ h2)
    · exact Or.inr ⟨e1.trans e2, le1.trans le2⟩⟩

instance : IsTotal String strLE := ⟨fun a b => le_total a b⟩

instance : IsTrans String strLE := ⟨fun _ _ _ h1 h2 => le_trans h1 h2⟩

theorem value_le_posTotal {ps : List PosAgg} {p : PosAgg}
    (hp : p ∈ ps) (hpos : 0 < p.value) : p.value ≤ posTotal ps := by
  unfold posTotal
  apply List.single_le_sum
  · intro x hx
    obtain ⟨q, hq, rfl⟩ := List.mem_map.mp hx
    have := (List.mem_filter.mp hq).2
    simp only [decide_eq_true_eq] at this
    exact this.le
  · exact List.mem_map.mpr ⟨p, List.mem_filter.mpr ⟨hp, by simpa using hpos⟩, rfl⟩

theorem accountViolations_mem {aid : String} {ps : List PosAgg} {v : Violation}
    (hv : v ∈ accountViolations aid ps) :
    ∃ p ∈ ps, 0 < p.value ∧ 0 < posTotal ps ∧
      1 / 5 < p.value / posTotal ps ∧
      v = ⟨aid, p.ticker, p.shares, p.value, posTotal ps,
           (p.value / posTotal ps) * 100,
           (p.value / posTotal ps - 1 / 5) * 100⟩ := by
  unfold accountViolations at hv
  rw [List.mem_filterMap] at hv
  obtain ⟨p, hp, hf⟩ := hv
  have hp' : p ∈ ps := (List.perm_insertionSort tickLE ps).mem_iff.mp hp
  by_cases hval : p.value ≤ 0
  · rw [if_pos hval] at hf
    cases hf
  · push_neg at hval
    rw [if_neg (not_le.mpr hval)] at hf
    by_cases htot : 0 < posTotal ps
    · rw [concOf, if_pos htot] at hf
      by_cases hconc : 1 / 5 < p.value / posTotal ps
      · rw [if_pos hconc] at hf
        exact ⟨p, hp', hval, htot, hconc, (Option.some.inj hf).symm⟩
      · rw [if_neg hconc] at hf
        cases hf
    · rw [concOf, if_neg htot] at hf
      norm_num at hf
      cases hf

theorem accountViolations_bound {aid : String} {ps : List PosAgg} {v : Violation}
    (hv : v ∈ accountViolations aid ps) :
    0 ≤ v.concentration_pct ∧ v.concentration_pct ≤ 100 := by
  obtain ⟨p, hp, hval, htot, hconc, rfl⟩ := accountViolations_mem hv
  have hle : p.value / posTotal ps ≤ 1 :=
    (div_le_one htot).mpr (value_le_posTotal hp hval)
  have hge : (0 : ℚ) ≤ p.value / posTotal ps := div_nonneg hval.le htot.le
  constructor
  · exact mul_nonneg hge (by norm_num)
  · calc (p.value / posTotal ps) * 100 ≤ 1 * 100 :=
        mul_le_mul_of_nonneg_right hle (by norm_num)
    _ = 100 := by norm_num

theorem violationsFromTrades_eval : violationsFromTrades cstoreT 1 = [vT] := by
  simp only [violationsFromTrades, cstoreT, tradesUpTo, activeKeys, dictKeys,
    insertKey, tkey, aggShares, aggValue, tradeValue, qTruthy,
    accountViolations, posTotal, concOf, vT, List.insertionSort,
    List.orderedInsert, List.foldl, List.filter, List.map, List.flatMap,
    List.sum, List.filterMap]
  norm_num

theorem violationsFromBank_eval :
    violationsFromBank c6store 1 = [⟨"ACC1", "TKR", 0, 100, 100, 100, 80⟩] := by
  simp only [violationsFromBank, c6store, bankRows, dictKeys, insertKey,
    accountViolations, posTotal, concOf, List.insertionSort,
    List.orderedInsert, List.foldl, List.filter, List.map, List.flatMap,
    List.sum, List.filterMap]
  norm_num

/-- C1: every violation emitted by the concentration compliance engine,
from either the trade-derived or the snapshot-derived computation, has
`0 ≤ concentration_pct ≤ 100`: an evaluated position has strictly
positive aggregate value, and the account total sums exactly the strictly
positive aggregate values of that account's list, the position itself
among them. -/
theorem concentration_pct_bounded (s : Store) (d : Date) (v : Violation)
    (hv : v ∈ violationsFromTrades s d ∨ v ∈ violationsFromBank s d) :
    0 ≤ v.concentration_pct ∧ v.concentration_pct ≤ 100 := by
  rcases hv with h | h
  · simp only [violationsFromTrades, List.mem_flatMap] at h
    obtain ⟨aid, -, hv⟩ := h
    exact accountViolations_bound hv
  · simp only [violationsFromBank, List.mem_flatMap] at h
    obtain ⟨aid, -, hv⟩ := h
    exact accountViolations_bound hv

theorem concentration_pct_bounded_witness :
    0 ≤ vT.concentration_pct ∧ vT.concentration_pct ≤ 100 :=
  concentration_pct_bounded cstoreT 1 vT
    (Or.inl (by rw [violationsFromTrades_eval]; exact List.mem_singleton_self vT))

/-- C6 (amended): only the trade-derived half of the concentration
computation drops zero-net-share aggregates — every trade-derived
violation carries the nonzero net share count of its surviving aggregate.
The snapshot-derived half applies no such step (see the
counterexample, where a zero-share snapshot row is flagged). -/
theorem tradeViolations_nonzero_shares (s : Store) (d : Date) (v : Violation)
    (hv : v ∈ violationsFromTrades s d) : v.shares ≠ 0 := by
  simp only [violationsFromTrades, List.mem_flatMap] at hv
  obtain ⟨aid, -, hv⟩ := hv
  obtain ⟨p, hp, -, -, -, rfl⟩ := accountViolations_mem hv
  rw [List.mem_map] at hp
  obtain ⟨k, hk, rfl⟩ := hp
  have hk1 : k ∈ activeKeys (tradesUpTo s d) := (List.mem_filter.mp hk).1
  have hk2 := (List.mem_filter.mp hk1).2
  simpa using hk2

theorem tradeViolations_nonzero_shares_witness : vT.shares ≠ 0 :=
  tradeViolations_nonzero_shares cstoreT 1 vT
    (by rw [violationsFromTrades_eval]; exact List.mem_singleton_self vT)

/-- C6 counterexample: a snapshot row with zero shares and positive market
value is flagged as a violation by the snapshot-derived computation: the
zero-net-share drop claimed for both sources does not exist on the bank
side. -/
theorem bank_zero_share_violation :
    ∃ v ∈ violationsFromBank c6store 1, v.shares = 0 := by
  rw [violationsFromBank_eval]
  exact ⟨_, List.mem_singleton_self _, rfl⟩

/-- C8: the derived custodian name is `CUSTODIAN_` followed by the token
immediately after the first underscore separator; a reference with fewer
than two underscore-delimited segments, or an empty or absent reference,
yields no name — and the derivation is a total function, so it cannot
crash ingestion. -/
theorem extract_custodian_name_spec :
    (∀ (r first second : String) (rest : List String),
       r ≠ "" → pySplitUnderscore r = first :: second :: rest →
       extract_custodian_name (some r) = some ("CUSTODIAN_" ++ second)) ∧
    (∀ r : String, r ≠ "" → (pySplitUnderscore r).length < 2 →
       extract_custodian_name (some r) = none) ∧
    extract_custodian_name (some "") = none ∧
    extract_custodian_name none = none := by
  refine ⟨?_, ?_, rfl, rfl⟩
  · intro r first second rest hne hsplit
    simp only [extract_custodian_name]
    rw [if_neg hne, hsplit]
  · intro r hne hlen
    simp only [extract_custodian_name]
    rw [if_neg hne]
    cases hs : pySplitUnderscore r with
    | nil => rfl
    | cons a tl =>
      cases tl with
      | nil => rfl
      | cons b tl2 =>
        rw [hs] at hlen
        simp only [List.length_cons] at hlen
        omega

theorem extract_custodian_name_spec_witness :
    extract_custodian_name (some "CUST_A_12345") = some "CUSTODIAN_A" :=
  (extract_custodian_name_spec.1 "CUST_A_12345" "CUST" "A" ["12345"]
    (by decide) (by decide)).trans (by decide)

theorem calc_positions_eval :
    calculate_positions_from_trades c7store "A" 1 = some psC7 := by
  simp only [calculate_positions_from_trades, c7store, psC7, acctTrades,
    netSharesFor, totalCostFor, costContrib, qTruthy, dictKeys, insertKey,
    List.foldl, List.filter, List.map, List.filterMap, List.sum,
    List.isEmpty]
  norm_num

/-- C7: in the fallback positions path (result derived purely from trade
history), every ticker whose net signed share count is exactly zero is
omitted, and every returned position reports its market value as absent. -/
theorem fallback_positions_spec (s : Store) (aid : String) (d : Date)
    (ps : List FallbackPos)
    (h : calculate_positions_from_trades s aid d = some ps) :
    (∀ p ∈ ps, p.market_value = none ∧ p.shares ≠ 0) ∧
    (∀ tk : String, netSharesFor (acctTrades s aid d) tk = 0 →
       ∀ p ∈ ps, p.ticker ≠ tk) := by
  unfold calculate_positions_from_trades at h
  by_cases he : (acctTrades s aid d).isEmpty
  · rw [if_pos he] at h
    cases h
  · rw [if_neg he] at h
    injection h with h
    subst h
    constructor
    · intro p hp
      rw [List.mem_filterMap] at hp
      obtain ⟨tk, -, hf⟩ := hp
      by_cases hsh : netSharesFor (acctTrades s aid d) tk ≠ 0
      · rw [if_pos hsh] at hf
        obtain rfl := Option.some.inj hf
        exact ⟨rfl, hsh⟩
      · rw [if_neg hsh] at hf
        cases hf
    · intro tk h0 p hp
      rw [List.mem_filterMap] at hp
      obtain ⟨tk2, -, hf⟩ := hp
      by_cases hsh : netSharesFor (acctTrades s aid d) tk2 ≠ 0
      · rw [if_pos hsh] at hf
        obtain rfl := Option.some.inj hf
        show tk2 ≠ tk
        intro heq
        rw [heq] at hsh
        exact hsh h0
      · rw [if_neg hsh] at hf
        cases hf

theorem fallback_positions_spec_witness :
    (∀ p ∈ psC7, p.market_value = none ∧ p.shares ≠ 0) ∧
    (∀ tk : String, netSharesFor (acctTrades c7store "A" 1) tk = 0 →
       ∀ p ∈ psC7, p.ticker ≠ tk) :=
  fallback_positions_spec c7store "A" 1 psC7 calc_positions_eval

theorem countP_split {α : Type} (p : α → Bool) :
    ∀ l : List α, l.countP p + l.countP (fun a => !(p a)) = l.length := by
  intro l
  induction l with
  | nil => simp
  | cons x xs ih =>
    cases hx : p x <;> simp [List.countP_cons, hx] <;> omega

theorem ensure_account_exists_none {st : Store} {id : String} {c : Option String}
    (h : lookupAccount st id = none) :
    ensure_account_exists st id c = { st with accounts := st.accounts ++ [⟨id, c⟩] } := by
  unfold ensure_account_exists
  rw [h]

theorem ensure_account_exists_some {st : Store} {id : String} {c : Option String}
    {a : Account} (h : lookupAccount st id = some a) :
    ensure_account_exists st id c =
      if strTruthy c ∧ ¬ strTruthy a.custodian_name then
        { st with accounts := setCustodianFirst st.accounts id c }
      else st := by
  unfold ensure_account_exists
  rw [h]

theorem find?_setCustodianFirst_self :
    ∀ (A : List Account) (id : String) (c : Option String) (a : Account),
      A.find? (fun x => x.account_id = id) = some a →
      (setCustodianFirst A id c).find? (fun x => x.account_id = id)
        = some { a with custodian_name := c } := by
  intro A
  induction A with
  | nil => intro id c a h; simp at h
  | cons x xs ih =>
    intro id c a h
    by_cases hx : x.account_id = id
    · rw [List.find?_cons_of_pos _ (by simpa using hx)] at h
      obtain rfl := Option.some.inj h
      unfold setCustodianFirst
      rw [if_pos hx]
      exact List.find?_cons_of_pos _ (by simpa using hx)
    · rw [List.find?_cons_of_neg _ (by simpa using hx)] at h
      unfold setCustodianFirst
      rw [if_neg hx, List.find?_cons_of_neg _ (by simpa using hx)]
      exact ih id c a h

theorem find?_setCustodianFirst_other :
    ∀ (A : List Account) (idT : String) (c : Option String) (id : String),
      id ≠ idT →
      (setCustodianFirst A idT c).find? (fun x => x.account_id = id)
        = A.find? (fun x => x.account_id = id) := by
  intro A
  induction A with
  | nil => intro idT c id h; rfl
  | cons x xs ih =>
    intro idT c id h
    unfold setCustodianFirst
    by_cases hx : x.account_id = idT
    · rw [if_pos hx]
      by_cases hxid : x.account_id = id
      · rw [hxid] at hx
        exact absurd hx h
      · rw [List.find?_cons_of_neg _ (by simpa using hxid),
            List.find?_cons_of_neg _ (by simpa using hxid)]
    · rw [if_neg hx]
      by_cases hxid : x.account_id = id
      · rw [List.find?_cons_of_pos _ (by simpa using hxid),
            List.find?_cons_of_pos _ (by simpa using hxid)]
      · rw [List.find?_cons_of_neg _ (by simpa using hxid),
            List.find?_cons_of_neg _ (by simpa using hxid)]
        exact ih idT c id h

theorem mem_setCustodianFirst :
    ∀ (A : List Account) (id : String) (c : Option String) (x : Account),
      x ∈ setCustodianFirst A id c →
      x ∈ A ∨ ∃ a ∈ A, x = { a with custodian_name := c } := by
  intro A
  induction A with
  | nil =>
    intro id c x h
    cases h
  | cons y ys ih =>
    intro id c x h
    unfold setCustodianFirst at h
    by_cases hy : y.account_id = id
    · rw [if_pos hy] at h
      rcases List.mem_cons.mp h with rfl | h2
      · exact Or.inr ⟨y, List.mem_cons_self y ys, rfl⟩
      · exact Or.inl (List.mem_cons_of_mem _ h2)
    · rw [if_neg hy] at h
      rcases List.mem_cons.mp h with rfl | h2
      · exact Or.inl (List.mem_cons_self x ys)
      · rcases ih id c x h2 with h3 | ⟨a, ha, rfl⟩
        · exact Or.inl (List.mem_cons_of_mem _ h3)
        · exact Or.inr ⟨a, List.mem_cons_of_mem _ ha, rfl⟩

theorem lookupAccount_ensure_self (st : Store) (id : String) (c : Option String) :
    (lookupAccount (ensure_account_exists st id c) id).isNone = false := by
  cases h : lookupAccount st id with
  | none =>
    rw [ensure_account_exists_none h]
    unfold lookupAccount at h ⊢
    rw [List.find?_append, h]
    simp [List.find?]
  | some a =>
    rw [ensure_account_exists_some h]
    by_cases hc : strTruthy c ∧ ¬ strTruthy a.custodian_name
    · rw [if_pos hc]
      show ((setCustodianFirst st.accounts id c).find? (fun x => x.account_id = id)).isNone = false
      rw [find?_setCustodianFirst_self st.accounts id c a h]
      rfl
    · rw [if_neg hc]
      unfold lookupAccount at h ⊢
      rw [h]
      rfl

theorem lookupAccount_ensure_preserve (st : Store) (id idT : String)
    (c : Option String) (a : Account) (cn : String)
    (h : lookupAccount st id = some a) (hcn : a.custodian_name = some cn)
    (hcne : cn ≠ "") :
    lookupAccount (ensure_account_exists st idT c) id = some a := by
  cases hl : lookupAccount st idT with
  | none =>
    rw [ensure_account_exists_none hl]
    unfold lookupAccount at h ⊢
    rw [List.find?_append, h]
    rfl
  | some b =>
    rw [ensure_account_exists_some hl]
    by_cases hcb : strTruthy c ∧ ¬ strTruthy b.custodian_name
    · rw [if_pos hcb]
      by_cases hid : id = idT
      · subst hid
        rw [h] at hl
        obtain rfl := Option.some.inj hl
        exact absurd (by rw [hcn]; simpa [strTruthy] using hcne) hcb.2
      · show (setCustodianFirst st.accounts idT c).find? (fun x => x.account_id = id) = some a
        rw [find?_setCustodianFirst_other st.accounts idT c id hid]
        exact h
    · rw [if_neg hcb]
      exact h

theorem storeOk_ensure (st : Store) (id : String) (c : Option String)
    (hok : StoreOk st) (hc : ArgOk c) : StoreOk (ensure_account_exists st id c) := by
  cases hl : lookupAccount st id with
  | none =>
    rw [ensure_account_exists_none hl]
    intro a ha
    replace ha : a ∈ st.accounts ++ [⟨id, c⟩] := ha
    rcases List.mem_append.mp ha with h | h
    · exact hok a h
    · rw [List.mem_singleton] at h
      subst h
      rcases hc with rfl | ⟨s, rfl, hs⟩
      · simp
      · simpa using hs
  | some b =>
    rw [ensure_account_exists_some hl]
    by_cases hcb : strTruthy c ∧ ¬ strTruthy b.custodian_name
    · rw [if_pos hcb]
      intro a ha
      replace ha : a ∈ setCustodianFirst st.accounts id c := ha
      rcases mem_setCustodianFirst st.accounts id c a ha with h | ⟨x, hx, rfl⟩
      · exact hok a h
      · rcases hc with rfl | ⟨s, rfl, hs⟩
        · simp [strTruthy] at hcb
        · simpa using hs
    · rw [if_neg hcb]
      exact hok

theorem extract_custodian_ArgOk (x : Option String) :
    ArgOk (extract_custodian_name x) := by
  cases x with
  | none => exact Or.inl rfl
  | some r =>
    simp only [extract_custodian_name]
    by_cases hr : r = ""
    · rw [if_pos hr]
      exact Or.inl rfl
    · rw [if_neg hr]
      cases hs : pySplitUnderscore r with
      | nil => exact Or.inl rfl
      | cons a tl =>
        cases tl with
        | nil => exact Or.inl rfl
        | cons b tl2 =>
          refine Or.inr ⟨"CUSTODIAN_" ++ b, rfl, ?_⟩
          intro habs
          have hd : ("CUSTODIAN_" ++ b).data = "".data := congrArg String.data habs
          rw [String.data_append] at hd
          simp at hd

theorem ensure_account_trades (st : Store) (id : String) (c : Option String) :
    (ensure_account_exists st id c).trades = st.trades := by
  cases h : lookupAccount st id with
  | none => rw [ensure_account_exists_none h]
  | some a =>
    rw [ensure_account_exists_some h]
    by_cases hc : strTruthy c ∧ ¬ strTruthy a.custodian_name
    · rw [if_pos hc]
    · rw [if_neg hc]

theorem ensure_account_positions (st : Store) (id : String) (c : Option String) :
    (ensure_account_exists st id c).positions = st.positions := by
  cases h : lookupAccount st id with
  | none => rw [ensure_account_exists_none h]
  | some a =>
    rw [ensure_account_exists_some h]
    by_cases hc : strTruthy c ∧ ¬ strTruthy a.custodian_name
    · rw [if_pos hc]
    · rw [if_neg hc]

theorem ingest1loop_processed :
    ∀ (rows : List RawTrade1) (st : Store) (rep : Report) (n : ℕ),
      (ingest1loop st rep n rows).1.records_processed
        = rep.records_processed + rows.length := by
  intro rows
  induction rows with
  | nil => intro st rep n; simp [ingest1loop]
  | cons row rest ih =>
    intro st rep n
    cases hval : validateTradeFormat1 row with
    | ok v =>
      simp only [ingest1loop, hval]
      rw [ih]
      simp [apply_ite (f := fun r : Report => r.records_processed)]
      omega
    | error e =>
      simp only [ingest1loop, hval]
      rw [ih]
      simp
      omega

theorem ingest1loop_valid :
    ∀ (rows : List RawTrade1) (st : Store) (rep : Report) (n : ℕ),
      (ingest1loop st rep n rows).1.records_valid
        = rep.records_valid + rows.countP (fun r => (okTrade1 r).isSome) := by
  intro rows
  induction rows with
  | nil => intro st rep n; simp [ingest1loop]
  | cons row rest ih =>
    intro st rep n
    cases hval : validateTradeFormat1 row with
    | ok v =>
      simp only [ingest1loop, hval]
      rw [ih]
      simp [apply_ite (f := fun r : Report => r.records_valid),
        List.countP_cons, okTrade1, hval, Except.toOption]
      omega
    | error e =>
      simp only [ingest1loop, hval]
      rw [ih]
      simp [List.countP_cons, okTrade1, hval, Except.toOption]

theorem ingest1loop_failed :
    ∀ (rows : List RawTrade1) (st : Store) (rep : Report) (n : ℕ),
      (ingest1loop st rep n rows).1.records_failed
        = rep.records_failed + rows.countP (fun r => !(okTrade1 r).isSome) := by
  intro rows
  induction rows with
  | nil => intro st rep n; simp [ingest1loop]
  | cons row rest ih =>
    intro st rep n
    cases hval : validateTradeFormat1 row with
    | ok v =>
      simp only [ingest1loop, hval]
      rw [ih]
      simp [apply_ite (f := fun r : Report => r.records_failed),
        List.countP_cons, okTrade1, hval, Except.toOption]
    | error e =>
      simp only [ingest1loop, hval]
      rw [ih]
      simp [List.countP_cons, okTrade1, hval, Except.toOption]
      omega

theorem ingest1loop_errors :
    ∀ (rows : List RawTrade1) (st : Store) (rep : Report) (n : ℕ),
      (ingest1loop st rep n rows).1.errors
        = rep.errors ++ (rows.enumFrom n).filterMap err1 := by
  intro rows
  induction rows with
  | nil => intro st rep n; simp [ingest1loop]
  | cons row rest ih =>
    intro st rep n
    cases hval : validateTradeFormat1 row with
    | ok v =>
      simp only [ingest1loop, hval]
      rw [ih]
      simp [apply_ite (f := fun r : Report => r.errors),
        List.enumFrom_cons, List.filterMap_cons, err1, hval]
    | error e =>
      simp only [ingest1loop, hval]
      rw [ih]
      simp [List.enumFrom_cons, List.filterMap_cons, err1, hval]

theorem ingest1loop_newacc :
    ∀ (rows : List RawTrade1) (st : Store) (rep : Report) (n : ℕ),
      (ingest1loop st rep n rows).1.new_accounts_created
        = rep.new_accounts_created := by
  intro rows
  induction rows with
  | nil => intro st rep n; simp [ingest1loop]
  | cons row rest ih =>
    intro st rep n
    cases hval : validateTradeFormat1 row with
    | ok v =>
      simp only [ingest1loop, hval]
      rw [ih]
      simp [lookupAccount_ensure_self]
    | error e =>
      simp only [ingest1loop, hval]
      rw [ih]

theorem ingest1loop_trades :
    ∀ (rows : List RawTrade1) (st : Store) (rep : Report) (n : ℕ),
      (ingest1loop st rep n rows).2.trades
        = st.trades ++ rows.filterMap okTrade1 := by
  intro rows
  induction rows with
  | nil => intro st rep n; simp [ingest1loop]
  | cons row rest ih =>
    intro st rep n
    cases hval : validateTradeFormat1 row with
    | ok v =>
      simp only [ingest1loop, hval]
      rw [ih]
      simp [ensure_account_trades, List.filterMap_cons, okTrade1, hval, Except.toOption]
    | error e =>
      simp only [ingest1loop, hval]
      rw [ih]
      simp [List.filterMap_cons, okTrade1, hval, Except.toOption]

theorem ingest1loop_positions :
    ∀ (rows : List RawTrade1) (st : Store) (rep : Report) (n : ℕ),
      (ingest1loop st rep n rows).2.positions = st.positions := by
  intro rows
  induction rows with
  | nil => intro st rep n; simp [ingest1loop]
  | cons row rest ih =>
    intro st rep n
    cases hval : validateTradeFormat1 row with
    | ok v =>
      simp only [ingest1loop, hval]
      rw [ih]
      simp [ensure_account_positions]
    | error e =>
      simp only [ingest1loop, hval]
      rw [ih]

theorem ingest2loop_processed :
    ∀ (rows : List RawTrade2) (st : Store) (rep : Report) (n : ℕ),
      (ingest2loop st rep n rows).1.records_processed
        = rep.records_processed + rows.length := by
  intro rows
  induction rows with
  | nil => intro st rep n; simp [ingest2loop]
  | cons row rest ih =>
    intro st rep n
    cases hval : validateTradeFormat2 row with
    | ok v =>
      simp only [ingest2loop, hval]
      rw [ih]
      simp [apply_ite (f := fun r : Report => r.records_processed)]
      omega
    | error e =>
      simp only [ingest2loop, hval]
      rw [ih]
      simp
      omega

theorem ingest2loop_valid :
    ∀ (rows : List RawTrade2) (st : Store) (rep : Report) (n : ℕ),
      (ingest2loop st rep n rows).1.records_valid
        = rep.records_valid + rows.countP (fun r => (okTrade2 r).isSome) := by
  intro rows
  induction rows with
  | nil => intro st rep n; simp [ingest2loop]
  | cons row rest ih =>
    intro st rep n
    cases hval : validateTradeFormat2 row with
    | ok v =>
      simp only [ingest2loop, hval]
      rw [ih]
      simp [apply_ite (f := fun r : Report => r.records_valid),
        List.countP_cons, okTrade2, hval, Except.toOption]
      omega
    | error e =>
      simp only [ingest2loop, hval]
      rw [ih]
      simp [List.countP_cons, okTrade2, hval, Except.toOption]

theorem ingest2loop_failed :
    ∀ (rows : List RawTrade2) (st : Store) (rep : Report) (n : ℕ),
      (ingest2loop st rep n rows).1.records_failed
        = rep.records_failed + rows.countP (fun r => !(okTrade2 r).isSome) := by
  intro rows
  induction rows with
  | nil => intro st rep n; simp [ingest2loop]
  | cons row rest ih =>
    intro st rep n
    cases hval : validateTradeFormat2 row with
    | ok v =>
      simp only [ingest2loop, hval]
      rw [ih]
      simp [apply_ite (f := fun r : Report => r.records_failed),
        List.countP_cons, okTrade2, hval, Except.toOption]
    | error e =>
      simp only [ingest2loop, hval]
      rw [ih]
      simp [List.countP_cons, okTrade2, hval, Except.toOption]
      omega

theorem ingest2loop_errors :
    ∀ (rows : List RawTrade2) (st : Store) (rep : Report) (n : ℕ),
      (ingest2loop st rep n rows).1.errors
        = rep.errors ++ (rows.enumFrom n).filterMap err2 := by
  intro rows
  induction rows with
  | nil => intro st rep n; simp [ingest2loop]
  | cons row rest ih =>
    intro st rep n
    cases hval : validateTradeFormat2 row with
    | ok v =>
      simp only [ingest2loop, hval]
      rw [ih]
      simp [apply_ite (f := fun r : Report => r.errors),
        List.enumFrom_cons, List.filterMap_cons, err2, hval]
    | error e =>
      simp only [ingest2loop, hval]
      rw [ih]
      simp [List.enumFrom_cons, List.filterMap_cons, err2, hval]

theorem ingest2loop_newacc :
    ∀ (rows : List RawTrade2) (st : Store) (rep : Report) (n : ℕ),
      (ingest2loop st rep n rows).1.new_accounts_created
        = rep.new_accounts_created := by
  intro rows
  induction rows with
  | nil => intro st rep n; simp [ingest2loop]
  | cons row rest ih =>
    intro st rep n
    cases hval : validateTradeFormat2 row with
    | ok v =>
      simp only [ingest2loop, hval]
      rw [ih]
      simp [lookupAccount_ensure_self]
    | error e =>
      simp only [ingest2loop, hval]
      rw [ih]

theorem ingest2loop_trades :
    ∀ (rows : List RawTrade2) (st : Store) (rep : Report) (n : ℕ),
      (ingest2loop st rep n rows).2.trades
        = st.trades ++ rows.filterMap okTrade2 := by
  intro rows
  induction rows with
  | nil => intro st rep n; simp [ingest2loop]
  | cons row rest ih =>
    intro st rep n
    cases hval : validateTradeFormat2 row with
    | ok v =>
      simp only [ingest2loop, hval]
      rw [ih]
      simp [ensure_account_trades, List.filterMap_cons, okTrade2, hval, Except.toOption]
    | error e =>
      simp only [ingest2loop, hval]
      rw [ih]
      simp [List.filterMap_cons, okTrade2, hval, Except.toOption]

theorem ingest2loop_positions :
    ∀ (rows : List RawTrade2) (st : Store) (rep : Report) (n : ℕ),
      (ingest2loop st rep n rows).2.positions = st.positions := by
  intro rows
  induction rows with
  | nil => intro st rep n; simp [ingest2loop]
  | cons row rest ih =>
    intro st rep n
    cases hval : validateTradeFormat2 row with
    | ok v =>
      simp only [ingest2loop, hval]
      rw [ih]
      simp [ensure_account_positions]
    | error e =>
      simp only [ingest2loop, hval]
      rw [ih]

theorem bankLoop_processed :
    ∀ (ps : List RawBankPosition) (st : Store) (rep : Report) (d : Date),
      (bankLoop st rep d ps).1.records_processed
        = rep.records_processed + ps.length := by
  intro ps
  induction ps with
  | nil => intro st rep d; simp [bankLoop]
  | cons p rest ih =>
    intro st rep d
    simp only [bankLoop]
    rw [ih]
    simp [apply_ite (f := fun r : Report => r.records_processed)]
    omega

theorem bankLoop_valid :
    ∀ (ps : List RawBankPosition) (st : Store) (rep : Report) (d : Date),
      (bankLoop st rep d ps).1.records_valid
        = rep.records_valid + ps.length := by
  intro ps
  induction ps with
  | nil => intro st rep d; simp [bankLoop]
  | cons p rest ih =>
    intro st rep d
    simp only [bankLoop]
    rw [ih]
    simp [apply_ite (f := fun r : Report => r.records_valid)]
    omega

theorem bankLoop_failed :
    ∀ (ps : List RawBankPosition) (st : Store) (rep : Report) (d : Date),
      (bankLoop st rep d ps).1.records_failed = rep.records_failed := by
  intro ps
  induction ps with
  | nil => intro st rep d; simp [bankLoop]
  | cons p rest ih =>
    intro st rep d
    simp only [bankLoop]
    rw [ih]
    simp [apply_ite (f := fun r : Report => r.records_failed)]

theorem bankLoop_errors :
    ∀ (ps : List RawBankPosition) (st : Store) (rep : Report) (d : Date),
      (bankLoop st rep d ps).1.errors = rep.errors := by
  intro ps
  induction ps with
  | nil => intro st rep d; simp [bankLoop]
  | cons p rest ih =>
    intro st rep d
    simp only [bankLoop]
    rw [ih]
    simp [apply_ite (f := fun r : Report => r.errors)]

theorem bankLoop_newacc :
    ∀ (ps : List RawBankPosition) (st : Store) (rep : Report) (d : Date),
      (bankLoop st rep d ps).1.new_accounts_created
        = rep.new_accounts_created := by
  intro ps
  induction ps with
  | nil => intro st rep d; simp [bankLoop]
  | cons p rest ih =>
    intro st rep d
    simp only [bankLoop]
    rw [ih]
    simp [lookupAccount_ensure_self]

theorem bankLoop_positions :
    ∀ (ps : List RawBankPosition) (st : Store) (rep : Report) (d : Date),
      (bankLoop st rep d ps).2.positions
        = st.positions ++ ps.map (mkPosition d) := by
  intro ps
  induction ps with
  | nil => intro st rep d; simp [bankLoop]
  | cons p rest ih =>
    intro st rep d
    simp only [bankLoop]
    rw [ih]
    simp [ensure_account_positions]

theorem bankLoop_trades :
    ∀ (ps : List RawBankPosition) (st : Store) (rep : Report) (d : Date),
      (bankLoop st rep d ps).2.trades = st.trades := by
  intro ps
  induction ps with
  | nil => intro st rep d; simp [bankLoop]
  | cons p rest ih =>
    intro st rep d
    simp only [bankLoop]
    rw [ih]
    simp [ensure_account_trades]

/-- C10: every ingestion call returns a report with
`records_processed = records_valid + records_failed`: each processed
record counts as exactly one of valid or failed, and file-level errors
(including aborts after a prefix of rows) touch only the errors list,
never the failure counter. -/
theorem records_processed_split :
    (∀ (st : Store) (rows : List RawTrade1) (fe : Option String),
        (ingest_trade_format1 st rows fe).1.records_processed
          = (ingest_trade_format1 st rows fe).1.records_valid
            + (ingest_trade_format1 st rows fe).1.records_failed) ∧
    (∀ (st : Store) (rows : List RawTrade2) (fe : Option String),
        (ingest_trade_format2 st rows fe).1.records_processed
          = (ingest_trade_format2 st rows fe).1.records_valid
            + (ingest_trade_format2 st rows fe).1.records_failed) ∧
    (∀ (st : Store) (doc : Option RawBankFile),
        (ingest_bank_positions st doc).1.records_processed
          = (ingest_bank_positions st doc).1.records_valid
            + (ingest_bank_positions st doc).1.records_failed) ∧
    (∀ (st : Store) (rows : List RawTrade1) (e : String),
        (ingest_trade_format1 st rows (some e)).1.records_failed
          = (ingest_trade_format1 st rows none).1.records_failed ∧
        (ingest_trade_format1 st rows (some e)).1.errors
          = (ingest_trade_format1 st rows none).1.errors
            ++ ["File processing error: " ++ e]) ∧
    (∀ (st : Store) (rows : List RawTrade2) (e : String),
        (ingest_trade_format2 st rows (some e)).1.records_failed
          = (ingest_trade_format2 st rows none).1.records_failed ∧
        (ingest_trade_format2 st rows (some e)).1.errors
          = (ingest_trade_format2 st rows none).1.errors
            ++ ["File processing error: " ++ e]) := by
  refine ⟨?_, ?_, ?_, fun st rows e => ⟨rfl, rfl⟩, fun st rows e => ⟨rfl, rfl⟩⟩
  · intro st rows fe
    have hp := ingest1loop_processed rows st emptyReport 2
    have hv := ingest1loop_valid rows st emptyReport 2
    have hf := ingest1loop_failed rows st emptyReport 2
    have hc := countP_split (fun r => (okTrade1 r).isSome) rows
    cases fe with
    | none =>
      simp only [ingest_trade_format1] at hp hv hf ⊢
      rw [hp, hv, hf]
      simp only [emptyReport]
      omega
    | some e =>
      simp only [ingest_trade_format1] at hp hv hf ⊢
      rw [hp, hv, hf]
      simp only [emptyReport]
      omega
  · intro st rows fe
    have hp := ingest2loop_processed rows st emptyReport 2
    have hv := ingest2loop_valid rows st emptyReport 2
    have hf := ingest2loop_failed rows st emptyReport 2
    have hc := countP_split (fun r => (okTrade2 r).isSome) rows
    cases fe with
    | none =>
      simp only [ingest_trade_format2] at hp hv hf ⊢
      rw [hp, hv, hf]
      simp only [emptyReport]
      omega
    | some e =>
      simp only [ingest_trade_format2] at hp hv hf ⊢
      rw [hp, hv, hf]
      simp only [emptyReport]
      omega
  · intro st doc
    cases doc with
    | none => rfl
    | some f =>
      cases hvb : validateBankFile f with
      | error e =>
        simp only [ingest_bank_positions, hvb]
        rfl
      | ok ps =>
        simp only [ingest_bank_positions, hvb]
        rw [bankLoop_processed, bankLoop_valid, bankLoop_failed]
        simp only [emptyReport]
        omega

/-- C3 (code bug): every ingestion handler checks for the account *after*
`ensure_account_exists` has inserted it, so the query always finds the
account and `new_accounts_created` is never incremented — here shown at a
concrete failing input (one valid row for the unseen account ACC1, which
does create the account yet reports 0) and in general for every Format 1
call. -/
theorem new_account_created_but_not_counted :
    (ingest_trade_format1 emptyStore [c3row] none).1.new_accounts_created = 0 ∧
    (lookupAccount (ingest_trade_format1 emptyStore [c3row] none).2 "ACC1").isSome
      = true ∧
    (∀ (st : Store) (rows : List RawTrade1) (fe : Option String),
        (ingest_trade_format1 st rows fe).1.new_accounts_created = 0) := by
  refine ⟨by decide, by decide, ?_⟩
  intro st rows fe
  have hn := ingest1loop_newacc rows st emptyReport 2
  cases fe with
  | none => simpa only [ingest_trade_format1, emptyReport] using hn
  | some e => simpa only [ingest_trade_format1, emptyReport] using hn

theorem validateTradeFormat1_quantity_pos {row : RawTrade1} {v : TradeFormat1V}
    (h : validateTradeFormat1 row = .ok v) : 0 < v.quantity := by
  unfold validateTradeFormat1 at h
  split at h
  next => cases h
  split at h
  next => cases h
  split at h
  next hq => cases h
  next hq =>
  split at h
  next => cases h
  split at h
  next => cases h
  next tt htt =>
  split at h
  next => cases h
  obtain rfl := Except.ok.inj h
  exact not_le.mp hq

/-- C4: every valid Format A row is stored with the quantity negated
exactly when the trade type is SELL (the validated quantity itself is
strictly positive, so a BUY stays positive), and with
`market_value = price * |stored quantity|`. -/
theorem format1_sign_and_value (st : Store) (rows : List RawTrade1)
    (row : RawTrade1) (v : TradeFormat1V)
    (hrow : row ∈ rows) (hval : validateTradeFormat1 row = .ok v) :
    mkTrade1 v ∈ (ingest_trade_format1 st rows none).2.trades ∧
    0 < v.quantity ∧
    (mkTrade1 v).quantity
      = (if v.trade_type = TradeType.SELL then -v.quantity else v.quantity) ∧
    (mkTrade1 v).price = some v.price ∧
    (mkTrade1 v).market_value
      = some (v.price * |((mkTrade1 v).quantity : ℚ)|) := by
  refine ⟨?_, validateTradeFormat1_quantity_pos hval, rfl, rfl, rfl⟩
  show mkTrade1 v ∈ (ingest1loop st emptyReport 2 rows).2.trades
  rw [ingest1loop_trades]
  refine List.mem_append_right _ ?_
  exact List.mem_filterMap.mpr
    ⟨row, hrow, by simp [okTrade1, hval, Except.toOption]⟩

theorem format1_sign_and_value_witness :
    mkTrade1 c4v ∈ (ingest_trade_format1 emptyStore [c4row] none).2.trades ∧
    0 < c4v.quantity ∧
    (mkTrade1 c4v).quantity
      = (if c4v.trade_type = TradeType.SELL then -c4v.quantity else c4v.quantity) ∧
    (mkTrade1 c4v).price = some c4v.price ∧
    (mkTrade1 c4v).market_value
      = some (c4v.price * |((mkTrade1 c4v).quantity : ℚ)|) :=
  format1_sign_and_value emptyStore [c4row] c4row c4v
    (List.mem_singleton_self _) (by rfl)

/-- C5 (amended): for the row-based trade formats (A and B) every record
failing field-level validation increments `records_failed`, appends one
error tagged with its file row number (data rows numbered from 2, the
header being row 1), and processing continues with the remaining records,
valid rows staying persisted. For YAML position files the position
entries are validated as part of the whole document, so a single
field-invalid position aborts the entire call with one file-level error,
zero records processed and nothing persisted. -/
theorem per_record_isolation :
    (∀ (st : Store) (rows : List RawTrade1),
        (ingest_trade_format1 st rows none).1.records_processed = rows.length ∧
        (ingest_trade_format1 st rows none).1.records_failed
          = rows.countP (fun r => !(okTrade1 r).isSome) ∧
        (ingest_trade_format1 st rows none).1.records_valid
          = rows.countP (fun r => (okTrade1 r).isSome) ∧
        (ingest_trade_format1 st rows none).1.errors
          = (rows.enumFrom 2).filterMap err1 ∧
        (ingest_trade_format1 st rows none).2.trades
          = st.trades ++ rows.filterMap okTrade1) ∧
    (∀ (st : Store) (rows : List RawTrade2),
        (ingest_trade_format2 st rows none).1.records_processed = rows.length ∧
        (ingest_trade_format2 st rows none).1.records_failed
          = rows.countP (fun r => !(okTrade2 r).isSome) ∧
        (ingest_trade_format2 st rows none).1.records_valid
          = rows.countP (fun r => (okTrade2 r).isSome) ∧
        (ingest_trade_format2 st rows none).1.errors
          = (rows.enumFrom 2).filterMap err2 ∧
        (ingest_trade_format2 st rows none).2.trades
          = st.trades ++ rows.filterMap okTrade2) ∧
    (∀ (st : Store) (f : RawBankFile),
        (∃ p ∈ f.positions, ¬ validBankPosition p) →
        (ingest_bank_positions st (some f)).1.records_processed = 0 ∧
        (ingest_bank_positions st (some f)).1.records_failed = 0 ∧
        (ingest_bank_positions st (some f)).1.errors
          = ["File processing error: validation error for BankPositionFile"] ∧
        (ingest_bank_positions st (some f)).2 = st) := by
  refine ⟨?_, ?_, ?_⟩
  · intro st rows
    have hp := ingest1loop_processed rows st emptyReport 2
    have hv := ingest1loop_valid rows st emptyReport 2
    have hf := ingest1loop_failed rows st emptyReport 2
    have he := ingest1loop_errors rows st emptyReport 2
    have ht := ingest1loop_trades rows st emptyReport 2
    simp only [ingest_trade_format1, emptyReport] at hp hv hf he ht ⊢
    refine ⟨by rw [hp]; omega, by rw [hf]; omega, by rw [hv]; omega, ?_, ht⟩
    rw [he]
    simp
  · intro st rows
    have hp := ingest2loop_processed rows st emptyReport 2
    have hv := ingest2loop_valid rows st emptyReport 2
    have hf := ingest2loop_failed rows st emptyReport 2
    have he := ingest2loop_errors rows st emptyReport 2
    have ht := ingest2loop_trades rows st emptyReport 2
    simp only [ingest_trade_format2, emptyReport] at hp hv hf he ht ⊢
    refine ⟨by rw [hp]; omega, by rw [hf]; omega, by rw [hv]; omega, ?_, ht⟩
    rw [he]
    simp
  · intro st f hbad
    have hvb : validateBankFile f
        = .error "validation error for BankPositionFile" := by
      unfold validateBankFile
      rw [if_neg]
      intro hall
      obtain ⟨p, hp, hnp⟩ := hbad
      exact hnp (List.all_eq_true.mp hall p hp)
    simp only [ingest_bank_positions, hvb]
    exact ⟨rfl, rfl, by decide, trivial⟩


theorem per_record_isolation_witness :
    (ingest_bank_positions emptyStore (some c5doc)).1.records_processed = 0 ∧
    (ingest_bank_positions emptyStore (some c5doc)).1.records_failed = 0 ∧
    (ingest_bank_positions emptyStore (some c5doc)).1.errors
      = ["File processing error: validation error for BankPositionFile"] ∧
    (ingest_bank_positions emptyStore (some c5doc)).2 = emptyStore :=
  per_record_isolation.2.2 emptyStore c5doc ⟨c5bad, by decide, by decide⟩

/-- C5 counterexample: a YAML document holding one valid and one
field-invalid position yields `records_processed = 0`,
`records_failed = 0` and persists nothing — the invalid record is not
counted as failed and the valid record is not kept, so a per-record
validation failure does abort the rest of the YAML file. -/
theorem yaml_bad_position_not_isolated :
    (ingest_bank_positions emptyStore (some c5doc)).1.records_failed = 0 ∧
    (ingest_bank_positions emptyStore (some c5doc)).1.records_valid = 0 ∧
    (ingest_bank_positions emptyStore (some c5doc)).1.records_processed = 0 ∧
    (ingest_bank_positions emptyStore (some c5doc)).2.positions = [] := by
  decide

theorem mkDiscrepancy_some {s : Store} {d : Date} {k : Key} {dd : Discrepancy}
    (h : mkDiscrepancy s d k = some dd) :
    dkey dd = k ∧
    dd.expected_shares = expectedShares s d k ∧
    dd.actual_shares = actualShares s d k ∧
    dd.expected_shares ≠ dd.actual_shares ∧
    dd.difference = dd.actual_shares - dd.expected_shares ∧
    dd.status = (if dd.actual_shares = 0 then "missing_in_bank"
      else if dd.expected_shares = 0 then "missing_in_trades"
      else "quantity_mismatch") := by
  unfold mkDiscrepancy at h
  by_cases hne : expectedShares s d k ≠ actualShares s d k
  · rw [if_pos hne] at h
    obtain rfl := Option.some.inj h
    exact ⟨rfl, rfl, rfl, hne, rfl, rfl⟩
  · rw [if_neg hne] at h
    cases h

theorem mkDiscrepancy_isSome {s : Store} {d : Date} {k : Key}
    (hne : expectedShares s d k ≠ actualShares s d k) :
    (mkDiscrepancy s d k).isSome := by
  unfold mkDiscrepancy
  rw [if_pos hne]
  rfl

theorem countP_filterMap_mkDiscrepancy_zero {s : Store} {d : Date} {k : Key} :
    ∀ {l : List Key}, k ∉ l →
      ((l.filterMap (mkDiscrepancy s d)).countP (fun dd => dkey dd = k)) = 0 := by
  intro l
  induction l with
  | nil => intro _; rfl
  | cons x xs ih =>
    intro hk
    have hxk : x ≠ k := fun h => hk (h ▸ List.mem_cons_self x xs)
    have hxs : k ∉ xs := fun h => hk (List.mem_cons_of_mem _ h)
    rw [List.filterMap_cons]
    cases hx : mkDiscrepancy s d x with
    | none => exact ih hxs
    | some dd =>
      rw [List.countP_cons]
      have h1 : dkey dd = x := (mkDiscrepancy_some hx).1
      simp [h1, hxk, ih hxs]

theorem countP_filterMap_mkDiscrepancy_one {s : Store} {d : Date} {k : Key} :
    ∀ {l : List Key}, l.Nodup → k ∈ l → (mkDiscrepancy s d k).isSome →
      ((l.filterMap (mkDiscrepancy s d)).countP (fun dd => dkey dd = k)) = 1 := by
  intro l
  induction l with
  | nil => intro _ hk; cases hk
  | cons x xs ih =>
    intro hnd hk hsome
    rw [List.filterMap_cons]
    rcases List.mem_cons.mp hk with rfl | hk2
    · have hnotin : k ∉ xs := (List.nodup_cons.mp hnd).1
      cases hx : mkDiscrepancy s d k with
      | none => rw [hx] at hsome; cases hsome
      | some dd =>
        rw [List.countP_cons]
        have h1 : dkey dd = k := (mkDiscrepancy_some hx).1
        simp [h1, countP_filterMap_mkDiscrepancy_zero hnotin]
    · have hxk : x ≠ k := by
        intro h
        exact (List.nodup_cons.mp hnd).1 (h ▸ hk2)
      cases hx : mkDiscrepancy s d x with
      | none => exact ih (List.nodup_cons.mp hnd).2 hk2 hsome
      | some dd =>
        rw [List.countP_cons]
        have h1 : dkey dd = x := (mkDiscrepancy_some hx).1
        simp [h1, hxk, ih (List.nodup_cons.mp hnd).2 hk2 hsome]

theorem pairwise_filterMap_of_pairwise {α β : Type} {R : α → α → Prop}
    {S : β → β → Prop} (f : α → Option β)
    (hf : ∀ a b x y, R a b → f a = some x → f b = some y → S x y) :
    ∀ l : List α, l.Pairwise R → (l.filterMap f).Pairwise S := by
  intro l
  induction l with
  | nil => intro _; simp
  | cons a as ih =>
    intro h
    rw [List.filterMap_cons]
    obtain ⟨ha, htail⟩ := List.pairwise_cons.mp h
    cases hfa : f a with
    | none => exact ih htail
    | some x =>
      refine List.pairwise_cons.mpr ⟨?_, ih htail⟩
      intro y hy
      obtain ⟨b, hb, hfb⟩ := List.mem_filterMap.mp hy
      exact hf a b x y (ha b hb) hfa hfb

theorem reconKeys_nodup (s : Store) (d : Date) : (reconKeys s d).Nodup := by
  unfold reconKeys
  exact (List.perm_insertionSort keyLE _).nodup_iff.mpr (nodup_dictKeys _)

theorem mem_reconKeys {s : Store} {d : Date} {k : Key} :
    k ∈ reconKeys s d ↔
      (∃ t ∈ tradesUpTo s d, tkey t = k) ∨ (∃ p ∈ bankRows s d, pkey p = k) := by
  unfold reconKeys
  rw [(List.perm_insertionSort keyLE _).mem_iff, mem_dictKeys, List.mem_append]
  simp only [List.mem_map]

/-- C2: `reconcile` emits exactly one discrepancy for each key of the
union of the trade-derived and snapshot key sets whose expected shares
(signed sum of trade quantities dated on or before the query date) differ
from the actual shares (the snapshot's shares on exactly that date,
0 when absent); each discrepancy carries `difference = actual − expected`
and status `missing_in_bank` when `actual = 0`, else `missing_in_trades`
when `expected = 0`, else `quantity_mismatch`; equal keys produce
nothing, and the output is sorted by `(account_id, ticker)`. -/
theorem reconcile_spec (s : Store) (d : Date) :
    (∀ k : Key, k ∈ reconKeys s d ↔
        ((∃ t ∈ tradesUpTo s d, tkey t = k) ∨ (∃ p ∈ bankRows s d, pkey p = k))) ∧
    (∀ dd ∈ reconcile s d,
        dkey dd ∈ reconKeys s d ∧
        dd.expected_shares = expectedShares s d (dkey dd) ∧
        dd.actual_shares = actualShares s d (dkey dd) ∧
        dd.expected_shares ≠ dd.actual_shares ∧
        dd.difference = dd.actual_shares - dd.expected_shares ∧
        dd.status = (if dd.actual_shares = 0 then "missing_in_bank"
          else if dd.expected_shares = 0 then "missing_in_trades"
          else "quantity_mismatch")) ∧
    (∀ k : Key, k ∈ reconKeys s d → expectedShares s d k ≠ actualShares s d k →
        (reconcile s d).countP (fun dd => dkey dd = k) = 1) ∧
    (∀ k : Key, expectedShares s d k = actualShares s d k →
        ∀ dd ∈ reconcile s d, dkey dd ≠ k) ∧
    (reconcile s d).Pairwise (fun d1 d2 => keyLE (dkey d1) (dkey d2)) := by
  refine ⟨fun k => mem_reconKeys, ?_, ?_, ?_, ?_⟩
  · intro dd hdd
    obtain ⟨k, hk, hmk⟩ := List.mem_filterMap.mp hdd
    obtain ⟨hkey, h2, h3, h4, h5, h6⟩ := mkDiscrepancy_some hmk
    subst hkey
    exact ⟨hk, h2, h3, h4, h5, h6⟩
  · intro k hk hne
    exact countP_filterMap_mkDiscrepancy_one (reconKeys_nodup s d) hk
      (mkDiscrepancy_isSome hne)
  · intro k heq dd hdd hkey
    obtain ⟨k2, hk2, hmk⟩ := List.mem_filterMap.mp hdd
    obtain ⟨hkey2, h2, h3, h4, -, -⟩ := mkDiscrepancy_some hmk
    subst hkey2
    subst hkey
    rw [h2, h3] at h4
    exact h4 heq
  · show ((reconKeys s d).filterMap (mkDiscrepancy s d)).Pairwise
        (fun d1 d2 => keyLE (dkey d1) (dkey d2))
    refine pairwise_filterMap_of_pairwise (R := keyLE) (mkDiscrepancy s d)
      (fun a b x y hr hx hy => ?_) (reconKeys s d) ?_
    · rw [(mkDiscrepancy_some hx).1, (mkDiscrepancy_some hy).1]
      exact hr
    · show (reconKeys s d).Pairwise keyLE
      exact List.sorted_insertionSort keyLE _

theorem reconcile_spec_witness :
    (reconcile rstore 1).countP (fun dd => dkey dd = ("X", "T")) = 1 :=
  (reconcile_spec rstore 1).2.2.1 ("X", "T") (by decide) (by decide)

theorem validateTradeFormat2_ok {row v : RawTrade2}
    (h : validateTradeFormat2 row = .ok v) :
    v = row ∧ row.source_system ≠ "" := by
  unfold validateTradeFormat2 at h
  split at h
  next => cases h
  split at h
  next => cases h
  split at h
  next => cases h
  next hs =>
  obtain rfl := Except.ok.inj h
  refine ⟨rfl, ?_⟩
  intro hempty
  rw [hempty] at hs
  exact hs (by decide)

theorem ensure_account_safe (st : Store) (id : String) (c : Option String)
    (hc : ArgOk c) :
    (StoreOk st → StoreOk (ensure_account_exists st id c)) ∧
    (∀ idq a cn, StoreOk st → lookupAccount st idq = some a →
        a.custodian_name = some cn →
        lookupAccount (ensure_account_exists st id c) idq = some a) := by
  constructor
  · intro hok
    exact storeOk_ensure st id c hok hc
  · intro idq a cn hok hl hcn
    have hmem : a ∈ st.accounts := List.mem_of_find?_eq_some hl
    have hcne : cn ≠ "" := by
      intro hceq
      exact hok a hmem (by rw [hcn, hceq])
    exact lookupAccount_ensure_preserve st idq id c a cn hl hcn hcne

theorem ingest1loop_accounts_safe :
    ∀ (rows : List RawTrade1) (st : Store) (rep : Report) (n : ℕ),
      (StoreOk st → StoreOk (ingest1loop st rep n rows).2) ∧
      (∀ id a cn, StoreOk st → lookupAccount st id = some a →
          a.custodian_name = some cn →
          lookupAccount (ingest1loop st rep n rows).2 id = some a) := by
  intro rows
  induction rows with
  | nil => intro st rep n; exact ⟨fun h => h, fun id a cn _ hl _ => hl⟩
  | cons row rest ih =>
    intro st rep n
    cases hval : validateTradeFormat1 row with
    | error e =>
      simp only [ingest1loop, hval]
      exact ih st _ (n + 1)
    | ok v =>
      simp only [ingest1loop, hval]
      constructor
      · intro hok
        exact ((ih _ _ (n + 1)).1 : _)
          (storeOk_ensure st v.account_id none hok (Or.inl rfl))
      · intro id a cn hok hl hcn
        refine (ih _ _ (n + 1)).2 id a cn
          (storeOk_ensure st v.account_id none hok (Or.inl rfl)) ?_ hcn
        exact (ensure_account_safe st v.account_id none (Or.inl rfl)).2
          id a cn hok hl hcn

theorem ingest2loop_accounts_safe :
    ∀ (rows : List RawTrade2) (st : Store) (rep : Report) (n : ℕ),
      (StoreOk st → StoreOk (ingest2loop st rep n rows).2) ∧
      (∀ id a cn, StoreOk st → lookupAccount st id = some a →
          a.custodian_name = some cn →
          lookupAccount (ingest2loop st rep n rows).2 id = some a) := by
  intro rows
  induction rows with
  | nil => intro st rep n; exact ⟨fun h => h, fun id a cn _ hl _ => hl⟩
  | cons row rest ih =>
    intro st rep n
    cases hval : validateTradeFormat2 row with
    | error e =>
      simp only [ingest2loop, hval]
      exact ih st _ (n + 1)
    | ok v =>
      simp only [ingest2loop, hval]
      have harg : ArgOk (some v.source_system) := by
        obtain ⟨rfl, hne⟩ := validateTradeFormat2_ok hval
        exact Or.inr ⟨v.source_system, rfl, hne⟩
      constructor
      · intro hok
        exact ((ih _ _ (n + 1)).1 : _)
          (storeOk_ensure st v.account_id (some v.source_system) hok harg)
      · intro id a cn hok hl hcn
        refine (ih _ _ (n + 1)).2 id a cn
          (storeOk_ensure st v.account_id (some v.source_system) hok harg) ?_ hcn
        exact (ensure_account_safe st v.account_id (some v.source_system) harg).2
          id a cn hok hl hcn

theorem bankLoop_accounts_safe :
    ∀ (ps : List RawBankPosition) (st : Store) (rep : Report) (d : Date),
      (StoreOk st → StoreOk (bankLoop st rep d ps).2) ∧
      (∀ id a cn, StoreOk st → lookupAccount st id = some a →
          a.custodian_name = some cn →
          lookupAccount (bankLoop st rep d ps).2 id = some a) := by
  intro ps
  induction ps with
  | nil => intro st rep d; exact ⟨fun h => h, fun id a cn _ hl _ => hl⟩
  | cons p rest ih =>
    intro st rep d
    simp only [bankLoop]
    have harg : ArgOk (extract_custodian_name (some p.custodian_ref)) :=
      extract_custodian_ArgOk (some p.custodian_ref)
    constructor
    · intro hok
      exact ((ih _ _ d).1 : _)
        (storeOk_ensure st p.account_id _ hok harg)
    · intro id a cn hok hl hcn
      refine (ih _ _ d).2 id a cn
        (storeOk_ensure st p.account_id _ hok harg) ?_ hcn
      exact (ensure_account_safe st p.account_id _ harg).2 id a cn hok hl hcn

theorem runIngest_accounts_safe (st : Store) (call : IngestCall) :
    (StoreOk st → StoreOk (runIngest st call)) ∧
    (∀ id a cn, StoreOk st → lookupAccount st id = some a →
        a.custodian_name = some cn →
        lookupAccount (runIngest st call) id = some a) := by
  cases call with
  | format1 rows fe =>
    cases fe with
    | none => exact ingest1loop_accounts_safe rows st emptyReport 2
    | some e => exact ⟨fun h => h, fun id a cn _ hl _ => hl⟩
  | format2 rows fe =>
    cases fe with
    | none => exact ingest2loop_accounts_safe rows st emptyReport 2
    | some e => exact ⟨fun h => h, fun id a cn _ hl _ => hl⟩
  | bank doc =>
    cases doc with
    | none => exact ⟨fun h => h, fun id a cn _ hl _ => hl⟩
    | some f =>
      cases hvb : validateBankFile f with
      | error e =>
        simp only [runIngest, ingest_bank_positions, hvb]
        exact ⟨fun h => h, fun id a cn _ hl _ => hl⟩
      | ok ps =>
        simp only [runIngest, ingest_bank_positions, hvb]
        exact bankLoop_accounts_safe ps st emptyReport f.report_date

theorem runIngestSeq_accounts_safe :
    ∀ (calls : List IngestCall) (st : Store),
      (StoreOk st → StoreOk (runIngestSeq st calls)) ∧
      (∀ id a cn, StoreOk st → lookupAccount st id = some a →
          a.custodian_name = some cn →
          lookupAccount (runIngestSeq st calls) id = some a) := by
  intro calls
  induction calls with
  | nil => intro st; exact ⟨fun h => h, fun id a cn _ hl _ => hl⟩
  | cons c cs ih =>
    intro st
    constructor
    · intro hok
      exact (ih (runIngest st c)).1 ((runIngest_accounts_safe st c).1 hok)
    · intro id a cn hok hl hcn
      exact (ih (runIngest st c)).2 id a cn
        ((runIngest_accounts_safe st c).1 hok)
        ((runIngest_accounts_safe st c).2 id a cn hok hl hcn) hcn

/-- C9: once an account's custodian name holds a non-null value, no
subsequent ingestion call ever changes it: the looked-up account row
stays exactly the same (and its only other field, the id, with it); every
store reachable from the empty store by ingestion calls satisfies the
`StoreOk` sanity hypothesis under which this holds. -/
theorem custodian_write_once :
    (∀ calls : List IngestCall, StoreOk (runIngestSeq emptyStore calls)) ∧
    (∀ (calls : List IngestCall) (st : Store) (id : String) (a : Account)
        (cn : String),
        StoreOk st → lookupAccount st id = some a →
        a.custodian_name = some cn →
        lookupAccount (runIngestSeq st calls) id = some a) := by
  constructor
  · intro calls
    exact (runIngestSeq_accounts_safe calls emptyStore).1
      (fun a ha => absurd ha (List.not_mem_nil a))
  · intro calls st id a cn hok hl hcn
    exact (runIngestSeq_accounts_safe calls st).2 id a cn hok hl hcn

theorem custodian_write_once_witness :
    lookupAccount (runIngestSeq (runIngestSeq emptyStore [c9call1]) [c9call2])
      "ACC1" = some c9acct :=
  custodian_write_once.2 [c9call2] (runIngestSeq emptyStore [c9call1])
    "ACC1" c9acct "CUSTA" (by decide) (by decide) (by decide)

end DC
